import Mathlib

/-!
Verification of the CXL SPSC/MPSC ring queue (`src/cxl_mpsc_queue_exp.hpp`).

The C++ queue is shallowly embedded as follows.

* Machine integers are `Nat` with explicit truncation: `uint32_t` stores are
  reduced `% 2 ^ 32` (`U32`), the `uint8_t` epoch store is reduced `% 256`,
  and the `(int32_t)` casts of the full check are modelled by `toI32`.
* A 64-byte `Entry` is a structure holding the seven payload words
  (`uint64_t args[7]`) and the packed control word fields.  The byte image
  of the line, as seen by `xor_checksum64`'s eight-word aliasing view, is
  recovered by `Entry.word`.
* The memory primitives (`store_nt_64B`, `load_fresh_64B`, `store_nt_u64`,
  `load_fresh_u64`) move whole values; in the sequential (single-threaded,
  interleaved-call) model used here they are exact assignments, so the ring
  is a function from slot index to `Entry` and the shared tail line is a
  single natural number.
* `enqueue` / `dequeue` are translated branch by branch from the source,
  including metric updates and the thread-local exponential backoff sites
  (`backoff_full{128}`, `backoff_empty{50}`, `backoff_checksum{100}`).
-/

namespace CxlQueue

/-- Modulus of `uint32_t` arithmetic. -/
def U32 : Nat := 4294967296

/-- Reinterpret a `uint32_t` bit pattern (a natural `< 2 ^ 32`) as the value of
the same pattern read as `int32_t` (two's complement), as done by the
`static_cast<int32_t>` in the enqueue full check. -/
def toI32 (x : Nat) : Int := if x < 2147483648 then (x : Int) else (x : Int) - (U32 : Int)

/-- Wrap-around `uint32_t` subtraction `a - b`, for `a b < 2 ^ 32`. -/
def u32sub (a b : Nat) : Nat := (a + U32 - b) % U32

/-- Fold of the 64-bit XOR accumulator to 16 bits, exactly the two statements of
`xor_checksum64`: `acc = (acc >> 32) ^ (acc & 0xFFFFFFFF)` followed by
`acc = (acc >> 16) ^ (acc & 0xFFFF)`. -/
def fold16 (acc : Nat) : Nat :=
  ((acc >>> 32) ^^^ (acc &&& 0xFFFFFFFF)) >>> 16 ^^^
    (((acc >>> 32) ^^^ (acc &&& 0xFFFFFFFF)) &&& 0xFFFF)

/-- Packed control word of an entry (`Entry::Meta::f`): `epoch : uint8_t`,
`rpc_method : uint8_t`, `rpc_id : uint16_t`, `seal_index : int16_t` (modelled
by its 16-bit pattern), `checksum : uint16_t`. -/
structure Meta where
  epoch : Nat
  rpc_method : Nat
  rpc_id : Nat
  seal_index : Nat
  checksum : Nat

/-- A 64-byte queue entry: `uint64_t args[7]` (the 56-byte payload) plus the
control word.  `sizeof(Entry) == 64`. -/
structure Entry where
  args : Fin 7 → Nat
  meta : Meta

/-- The low 48 bits of the control word: every field below the checksum. -/
def metaBase (m : Meta) : Nat :=
  m.epoch + m.rpc_method * 2 ^ 8 + m.rpc_id * 2 ^ 16 + m.seal_index * 2 ^ 32

/-- The control word as the little-endian `uint64_t` at byte offset 0x38:
epoch at 0x38, rpc_method at 0x39, rpc_id at 0x3A..0x3B, seal_index at
0x3C..0x3D, checksum at 0x3E..0x3F. -/
def Meta.word (m : Meta) : Nat :=
  m.epoch + m.rpc_method * 2 ^ 8 + m.rpc_id * 2 ^ 16 + m.seal_index * 2 ^ 32 +
    m.checksum * 2 ^ 48

/-- The eight 64-bit words of the 64-byte line of an entry, as read through the
`u64_may_alias` view of `xor_checksum64`. -/
def Entry.word (e : Entry) (i : Fin 8) : Nat :=
  if h : (i : Nat) < 7 then e.args ⟨i, h⟩ else e.meta.word

/-- XOR of the eight words of a 64-byte line (`for i in 0..8: acc ^= u[i]`). -/
def lineAcc (w : Fin 8 → Nat) : Nat :=
  (List.finRange 8).foldl (fun acc i => acc ^^^ w i) 0

/-- The 16-bit whole-line XOR fold of a 64-byte line. -/
def lineChecksum (w : Fin 8 → Nat) : Nat := fold16 (lineAcc w)

/-- `xor_checksum64` applied to an entry. -/
def xor_checksum64 (e : Entry) : Nat := lineChecksum e.word

/-- `verify_checksum`: the whole-line XOR fold must be 0. -/
def verify_checksum (e : Entry) : Bool := xor_checksum64 e == 0

/-- Flip bit `j` (with `j < 64`) of word `d` of a 64-byte line. -/
def flipBit (w : Fin 8 → Nat) (d : Fin 8) (j : Nat) : Fin 8 → Nat :=
  fun i => if i = d then w i ^^^ 2 ^ j else w i

/-- Overwrite the checksum field of an entry. -/
def setChecksum (e : Entry) (c : Nat) : Entry := { e with meta := { e.meta with checksum := c } }

/-- The producer's checksum stamping: set `checksum = 0`, compute the whole-line
fold, store it into the checksum field. -/
def stampChecksum (e : Entry) : Entry := setChecksum e (xor_checksum64 (setChecksum e 0))

/-- Field bounds of a well-formed entry, as enforced by the C types
(`uint64_t` payload words, `uint8_t`/`uint16_t` control fields); the checksum
field is unconstrained because stamping overwrites it. -/
def EntryWF (e : Entry) : Prop :=
  (∀ i, e.args i < 2 ^ 64) ∧ e.meta.epoch < 2 ^ 8 ∧ e.meta.rpc_method < 2 ^ 8 ∧
    e.meta.rpc_id < 2 ^ 16 ∧ e.meta.seal_index < 2 ^ 16

/-- The all-zero 64-byte line, the content of every slot after the
constructor's `memset`. -/
def zeroEntry : Entry := ⟨fun _ => 0, ⟨0, 0, 0, 0, 0⟩⟩

/-- Run-time metric counters of the queue (`struct Metrics`). -/
structure Metrics where
  enqueue_calls : Nat
  dequeue_calls : Nat
  read_cxl_tail : Nat
  queue_full : Nat
  no_new_items : Nat
  checksum_failed : Nat
  flush_tail : Nat
  consumer_backoff_events : Nat
  consumer_backoff_cycles_waited : Nat
  producer_backoff_events : Nat
  producer_backoff_cycles_waited : Nat

/-- All counters start at zero. -/
def Metrics.init : Metrics := ⟨0, 0, 0, 0, 0, 0, 0, 0, 0, 0, 0⟩

/-- `ExponentialBackoff::MAX_WAIT_CYCLES`. -/
def MAX_WAIT_CYCLES : Nat := 16384

/-- Per-site exponential backoff state (`struct ExponentialBackoff`). -/
structure ExponentialBackoff where
  MIN_WAIT_CYCLES : Nat
  current_wait : Nat

/-- `ExponentialBackoff::pause`: spin `current_wait` cycles, increment the
event counter, add `current_wait` to the cycles counter, then set
`current_wait = min(current_wait * 2, MAX_WAIT_CYCLES)` (the doubling is
`uint32_t` arithmetic).  Returns the new site state and the two updated
counters. -/
def ExponentialBackoff.pause (b : ExponentialBackoff) (events cycles : Nat) :
    ExponentialBackoff × Nat × Nat :=
  ({ b with current_wait := min (b.current_wait * 2 % U32) MAX_WAIT_CYCLES },
    events + 1, cycles + b.current_wait)

/-- The backoff reset performed after a successful operation: set
`current_wait = MIN_WAIT_CYCLES`. -/
def ExponentialBackoff.backoffReset (b : ExponentialBackoff) : ExponentialBackoff :=
  { b with current_wait := b.MIN_WAIT_CYCLES }

/-- State of a `CxlMpscQueue` in the sequential model: the ring (one `Entry`
per physical slot), the shared tail line (`cxl_tail_`, written by the consumer
and read by the producer), the three index registers, the metrics block and
the three thread-local backoff sites of `enqueue`/`dequeue`. -/
structure Queue where
  order : Nat
  ring : Nat → Entry
  head : Nat
  shadow_tail : Nat
  tail : Nat
  cxl_tail : Nat
  metrics : Metrics
  backoff_full : ExponentialBackoff
  backoff_empty : ExponentialBackoff
  backoff_checksum : ExponentialBackoff

/-- The constructor: `memset` the ring to zero, publish tail 0 into the shared
tail line; `head_`, `shadow_tail_` and `tail_` start at 0; the thread-local
backoff sites start at their minimum waits (128 producer-full, 50
consumer-empty, 100 consumer-checksum). -/
def mkQueue (order : Nat) : Queue :=
  { order := order, ring := fun _ => zeroEntry, head := 0, shadow_tail := 0,
    tail := 0, cxl_tail := 0, metrics := Metrics.init,
    backoff_full := ⟨128, 128⟩, backoff_empty := ⟨50, 50⟩,
    backoff_checksum := ⟨100, 100⟩ }

/-- The epoch byte computed from a 32-bit sequence index:
`static_cast<uint8_t>(slot >> order_) + 1` stored into the `uint8_t` field. -/
def epochOf (slot k : Nat) : Nat := ((slot >>> k) % 256 + 1) % 256

/-- The full check `(int32_t)(slot - shadow_tail_) >= (int32_t)cap` on
`uint32_t` operands, with `cap = 1u << order_`. -/
def fullCond (slot st k : Nat) : Bool := decide (toI32 (2 ^ k % U32) ≤ toI32 (u32sub slot st))

/-- The entry stamping performed by `enqueue` before publication: set the epoch
byte from the slot index, zero the checksum field, then store the whole-line
fold into the checksum field. -/
def stampEntry (k : Nat) (e : Entry) (slot : Nat) : Entry :=
  stampChecksum { e with meta := { e.meta with epoch := epochOf slot k } }

/-- The non-full tail of `enqueue`: reset the producer backoff, stamp the
caller's entry, publish it into slot `slot & mask_` and advance the head
(a `uint32_t` store). -/
def enqueuePublish (q : Queue) (e : Entry) (slot : Nat) : Bool × Entry × Queue :=
  let e' := stampEntry q.order e slot
  (true, e',
    { q with backoff_full := q.backoff_full.backoffReset,
             ring := fun j => if j = slot % 2 ^ q.order then e' else q.ring j,
             head := (slot + 1) % U32 })

/-- `CxlMpscQueue::enqueue` (`cxl_mpsc_queue_exp.hpp`).  Returns the result,
the caller's entry after in-place stamping, and the new queue state. -/
def enqueue (q : Queue) (e : Entry) : Bool × Entry × Queue :=
  let m0 := { q.metrics with enqueue_calls := q.metrics.enqueue_calls + 1 }
  let slot := q.head
  if fullCond slot q.shadow_tail q.order then
    let m1 := { m0 with read_cxl_tail := m0.read_cxl_tail + 1 }
    let st' := q.cxl_tail % U32
    if fullCond slot st' q.order then
      let m2 := { m1 with queue_full := m1.queue_full + 1 }
      let p := q.backoff_full.pause m2.producer_backoff_events m2.producer_backoff_cycles_waited
      (false, e,
        { q with shadow_tail := st',
                 metrics := { m2 with producer_backoff_events := p.2.1,
                                      producer_backoff_cycles_waited := p.2.2 },
                 backoff_full := p.1 })
    else
      enqueuePublish { q with shadow_tail := st', metrics := m1 } e slot
  else
    enqueuePublish { q with metrics := m0 } e slot

/-- `CxlMpscQueue::dequeue` (`cxl_mpsc_queue_exp.hpp`).  `out` is the caller's
buffer before the call; the returned `Entry` is its content after the call
(the fresh load of slot `tail_ & mask_` happens before any validation). -/
def dequeue (q : Queue) (out : Entry) : Bool × Entry × Queue :=
  let m0 := { q.metrics with dequeue_calls := q.metrics.dequeue_calls + 1 }
  let o := q.ring (q.tail % 2 ^ q.order)
  if o.meta.epoch ≠ epochOf q.tail q.order then
    let m1 := { m0 with no_new_items := m0.no_new_items + 1 }
    let p := q.backoff_empty.pause m1.consumer_backoff_events m1.consumer_backoff_cycles_waited
    (false, o,
      { q with metrics := { m1 with consumer_backoff_events := p.2.1,
                                    consumer_backoff_cycles_waited := p.2.2 },
               backoff_empty := p.1 })
  else if verify_checksum o = false then
    let m1 := { m0 with checksum_failed := m0.checksum_failed + 1 }
    let p := q.backoff_checksum.pause m1.consumer_backoff_events m1.consumer_backoff_cycles_waited
    (false, o,
      { q with metrics := { m1 with consumer_backoff_events := p.2.1,
                                    consumer_backoff_cycles_waited := p.2.2 },
               backoff_checksum := p.1 })
  else
    let t' := (q.tail + 1) % U32
    let f := max 1 (2 ^ q.order / 4)
    if t' % f = 0 then
      (true, o,
        { q with tail := t', cxl_tail := t',
                 backoff_empty := q.backoff_empty.backoffReset,
                 backoff_checksum := q.backoff_checksum.backoffReset,
                 metrics := { m0 with flush_tail := m0.flush_tail + 1 } })
    else
      (true, o,
        { q with tail := t',
                 backoff_empty := q.backoff_empty.backoffReset,
                 backoff_checksum := q.backoff_checksum.backoffReset,
                 metrics := m0 })

/-- One call in a sequential SPSC schedule: an enqueue of a given entry or a
dequeue (into a zeroed caller buffer). -/
inductive Op where
  | enq : Entry → Op
  | deq : Op

/-- Run a schedule of calls, accumulating the entries of the successful
enqueues (`E`) and the buffers returned by the successful dequeues (`D`). -/
def runAux (q : Queue) (E D : List Entry) : List Op → Queue × List Entry × List Entry
  | [] => (q, E, D)
  | Op.enq e :: ops =>
      let r := enqueue q e
      runAux r.2.2 (if r.1 then E ++ [e] else E) D ops
  | Op.deq :: ops =>
      let r := dequeue q zeroEntry
      runAux r.2.2 E (if r.1 then D ++ [r.2.1] else D) ops

/-- Run a schedule from a freshly constructed queue of the given order. -/
def run (k : Nat) (ops : List Op) : Queue × List Entry × List Entry :=
  runAux (mkQueue k) [] [] ops

/-- The tail-flush interval `max(1u, (1u << order_) / 4)`. -/
def flushF (k : Nat) : Nat := max 1 (2 ^ k / 4)

/-- The absolute index of the last write into physical slot `j` after `h`
successful enqueues (write number `i` goes to slot `i % cap`), or `none` if
the slot was never written. -/
def lastW (h cap j : Nat) : Option Nat :=
  if j < h then some (j + cap * ((h - 1 - j) / cap)) else none

/-- Ring contents determined by the list `E` of successfully enqueued entries:
slot `j` holds the stamped image of the last entry written into it, or the
zero-initialised line if it was never written. -/
def ringOf (k : Nat) (E : List Entry) (j : Nat) : Entry :=
  match lastW E.length (2 ^ k) j with
  | some i => stampEntry k (E.getD i zeroEntry) (i % U32)
  | none => zeroEntry

/-- The precondition checks executed by the constructor: the `assert`s verify
64-byte alignment of `ring_` and `cxl_tail_`; the `order_log2` argument is
received but never validated. -/
def ctorAsserts (ringAddr cxlAddr order : Nat) : Bool :=
  (ringAddr % 64 == 0) && (cxlAddr % 64 == 0)

/-- The entry crafted by the repository's checksum test
(`test_checksum_logic`): payload words `0x1111111111111111 * (i + 1)`,
`rpc_method = 7`, `rpc_id = 77`, `seal_index = -123` (pattern 65413). -/
def sampleEntry : Entry :=
  ⟨fun i => 0x1111111111111111 * ((i : Nat) + 1), ⟨0, 7, 77, 65413, 0⟩⟩

/-- The reachability invariant of the sequential model, relating a queue state
to the list `E` of successfully enqueued entries and the list `D` of
successfully dequeued buffers. -/
structure Inv (k : Nat) (q : Queue) (E D : List Entry) : Prop where
  horder : q.order = k
  hhead : q.head = E.length % U32
  htail : q.tail = D.length % U32
  hDE : D.length ≤ E.length
  hED : E.length ≤ D.length + 2 ^ k
  hcxl : q.cxl_tail = flushF k * (D.length / flushF k) % U32
  hflush : q.metrics.flush_tail = D.length / flushF k
  hshadow : ∃ S, q.shadow_tail = S % U32 ∧ S ≤ flushF k * (D.length / flushF k) ∧
      E.length ≤ S + 2 ^ k + flushF k
  hring : ∀ j, j < 2 ^ k → q.ring j = ringOf k E j
  hfifo : D.map Entry.args = (E.map Entry.args).take D.length
  hbfmin : q.backoff_full.MIN_WAIT_CYCLES = 128
  hbemin : q.backoff_empty.MIN_WAIT_CYCLES = 50
  hbcmin : q.backoff_checksum.MIN_WAIT_CYCLES = 100
  hbf : 128 ≤ q.backoff_full.current_wait ∧ q.backoff_full.current_wait ≤ MAX_WAIT_CYCLES
  hbe : 50 ≤ q.backoff_empty.current_wait ∧ q.backoff_empty.current_wait ≤ MAX_WAIT_CYCLES
  hbc : 100 ≤ q.backoff_checksum.current_wait ∧ q.backoff_checksum.current_wait ≤ MAX_WAIT_CYCLES

/-! ### Bit-level lemmas for the XOR checksum -/

theorem xor_left_comm3 (x y z : Nat) : x ^^^ (y ^^^ z) = y ^^^ (x ^^^ z) := by
  rw [← Nat.xor_assoc, Nat.xor_comm x y, Nat.xor_assoc]

theorem xor_cancel_left (a b : Nat) : a ^^^ (a ^^^ b) = b := by
  rw [← Nat.xor_assoc, Nat.xor_self, Nat.zero_xor]

theorem xor_mix (a b c d : Nat) : (a ^^^ b) ^^^ (c ^^^ d) = (a ^^^ c) ^^^ (b ^^^ d) := by
  simp only [Nat.xor_assoc]
  rw [xor_left_comm3 b c d]

theorem shiftRight_xor (x y n : Nat) : (x ^^^ y) >>> n = x >>> n ^^^ y >>> n := by
  apply Nat.eq_of_testBit_eq
  intro i
  simp [Nat.testBit_shiftRight, Nat.testBit_xor]

theorem and_xor (x y m : Nat) : (x ^^^ y) &&& m = (x &&& m) ^^^ (y &&& m) := by
  apply Nat.eq_of_testBit_eq
  intro i
  simp [Nat.testBit_and, Nat.testBit_xor, Bool.and_xor_distrib_right]

theorem and_mask32 (z : Nat) : z &&& 0xFFFFFFFF = z % 4294967296 := by
  have h := Nat.and_pow_two_sub_one_eq_mod z 32
  norm_num at h
  exact h

theorem and_mask16 (z : Nat) : z &&& 0xFFFF = z % 65536 := by
  have h := Nat.and_pow_two_sub_one_eq_mod z 16
  norm_num at h
  exact h

theorem fold16_xor (x y : Nat) : fold16 (x ^^^ y) = fold16 x ^^^ fold16 y := by
  have hg : (x ^^^ y) >>> 32 ^^^ (x ^^^ y) &&& 0xFFFFFFFF
      = (x >>> 32 ^^^ x &&& 0xFFFFFFFF) ^^^ (y >>> 32 ^^^ y &&& 0xFFFFFFFF) := by
    rw [shiftRight_xor, and_xor]
    exact xor_mix _ _ _ _
  unfold fold16
  rw [hg, shiftRight_xor, and_xor]
  exact xor_mix _ _ _ _

theorem fold16_lt (x : Nat) (h : x < 2 ^ 64) : fold16 x < 2 ^ 16 := by
  unfold fold16
  have h32 : x >>> 32 ^^^ x &&& 0xFFFFFFFF < 2 ^ 32 := by
    apply Nat.xor_lt_two_pow
    · rw [Nat.shiftRight_eq_div_pow]
      omega
    · have := and_mask32 x
      norm_num
      omega
  apply Nat.xor_lt_two_pow
  · rw [Nat.shiftRight_eq_div_pow]
    omega
  · have := and_mask16 (x >>> 32 ^^^ x &&& 0xFFFFFFFF)
    norm_num
    omega

theorem fold16_mul_two_pow48 (c : Nat) (hc : c < 2 ^ 16) : fold16 (c * 2 ^ 48) = c := by
  unfold fold16
  have h1 : (c * 2 ^ 48) >>> 32 = c * 2 ^ 16 := by
    rw [Nat.shiftRight_eq_div_pow]
    rw [show c * 2 ^ 48 = c * 2 ^ 16 * 2 ^ 32 by ring]
    exact Nat.mul_div_cancel _ (by norm_num)
  have h2 : (c * 2 ^ 48) &&& 0xFFFFFFFF = 0 := by
    rw [and_mask32]
    rw [show c * 2 ^ 48 = c * 2 ^ 16 * 4294967296 by norm_num; ring]
    exact Nat.mul_mod_left _ _
  have h3 : (c * 2 ^ 16) >>> 16 = c := by
    rw [Nat.shiftRight_eq_div_pow]
    exact Nat.mul_div_cancel _ (by norm_num)
  have h4 : (c * 2 ^ 16) &&& 0xFFFF = 0 := by
    rw [and_mask16]
    rw [show c * 2 ^ 16 = c * 65536 by norm_num]
    exact Nat.mul_mod_left _ _
  rw [h1, h2, Nat.xor_zero, h3, h4, Nat.xor_zero]

theorem add_mul_two_pow_eq_xor (a b k : Nat) (ha : a < 2 ^ k) :
    a + b * 2 ^ k = a ^^^ b * 2 ^ k := by
  apply Nat.eq_of_testBit_eq
  intro i
  rw [Nat.testBit_xor]
  by_cases hik : i < k
  · have hlow : (b * 2 ^ k).testBit i = false := by
      rw [Nat.testBit_to_div_mod]
      rw [show b * 2 ^ k = b * 2 ^ (k - i) * 2 ^ i by rw [mul_assoc, ← pow_add]; congr 2; omega]
      rw [Nat.mul_div_cancel _ (Nat.pos_pow_of_pos i (by norm_num))]
      have : b * 2 ^ (k - i) % 2 = 0 := by
        rw [show k - i = (k - i - 1) + 1 by omega, pow_succ, ← mul_assoc]
        exact Nat.mul_mod_left _ _
      simp [this]
    rw [hlow, Bool.xor_false]
    rw [Nat.testBit_to_div_mod, Nat.testBit_to_div_mod]
    rw [show b * 2 ^ k = b * 2 ^ (k - i) * 2 ^ i by rw [mul_assoc, ← pow_add]; congr 2; omega]
    rw [Nat.add_mul_div_right _ _ (Nat.pos_pow_of_pos i (by norm_num))]
    have : b * 2 ^ (k - i) % 2 = 0 := by
      rw [show k - i = (k - i - 1) + 1 by omega, pow_succ, ← mul_assoc]
      exact Nat.mul_mod_left _ _
    simp only [decide_eq_decide]
    omega
  · have hhigh : a.testBit i = false :=
      Nat.testBit_lt_two_pow (lt_of_lt_of_le ha (Nat.pow_le_pow_right (by norm_num) (by omega)))
    rw [hhigh, Bool.false_xor]
    rw [Nat.testBit_to_div_mod, Nat.testBit_to_div_mod]
    have hsplit : (2:Nat) ^ i = 2 ^ k * 2 ^ (i - k) := by
      rw [← pow_add]; congr 1; omega
    rw [hsplit, ← Nat.div_div_eq_div_mul, ← Nat.div_div_eq_div_mul]
    rw [Nat.add_mul_div_right _ _ (Nat.pos_pow_of_pos k (by norm_num)),
        Nat.div_eq_of_lt ha, Nat.mul_div_cancel _ (Nat.pos_pow_of_pos k (by norm_num))]
    simp

theorem lineAcc_eq (w : Fin 8 → Nat) :
    lineAcc w =
      ((((((((0 ^^^ w ⟨0, by omega⟩) ^^^ w ⟨1, by omega⟩) ^^^ w ⟨2, by omega⟩) ^^^
        w ⟨3, by omega⟩) ^^^ w ⟨4, by omega⟩) ^^^ w ⟨5, by omega⟩) ^^^ w ⟨6, by omega⟩) ^^^
        w ⟨7, by omega⟩) := rfl

theorem lineAcc_update (w : Fin 8 → Nat) (d : Fin 8) (v : Nat) :
    lineAcc (Function.update w d v) = lineAcc w ^^^ w d ^^^ v := by
  rw [lineAcc_eq, lineAcc_eq]
  fin_cases d <;>
    · simp only [Function.update_apply, Fin.mk.injEq, Fin.ext_iff]
      norm_num
      simp [Nat.xor_assoc, Nat.xor_comm, xor_left_comm3, xor_cancel_left, Nat.xor_self,
        Nat.xor_zero, Nat.zero_xor]

theorem flipBit_eq_update (w : Fin 8 → Nat) (d : Fin 8) (j : Nat) :
    flipBit w d j = Function.update w d (w d ^^^ 2 ^ j) := by
  funext i
  simp only [flipBit, Function.update, eq_rec_constant, dite_eq_ite]
  split <;> simp_all

theorem lineAcc_flip (w : Fin 8 → Nat) (d : Fin 8) (j : Nat) :
    lineAcc (flipBit w d j) = lineAcc w ^^^ 2 ^ j := by
  rw [flipBit_eq_update, lineAcc_update, Nat.xor_assoc, xor_cancel_left]

theorem fold16_two_pow_ne_zero : ∀ j : Fin 64, fold16 (2 ^ (j : Nat)) ≠ 0 := by decide

/-! ### Checksum stamping: the whole-line fold of a stamped entry is zero -/

theorem metaBase_lt (e : Entry) (hWF : EntryWF e) : metaBase e.meta < 2 ^ 48 := by
  obtain ⟨-, h1, h2, h3, h4⟩ := hWF
  unfold metaBase
  omega

theorem lineAcc_lt (w : Fin 8 → Nat) (hw : ∀ i, w i < 2 ^ 64) : lineAcc w < 2 ^ 64 := by
  rw [lineAcc_eq]
  exact Nat.xor_lt_two_pow
    (Nat.xor_lt_two_pow
      (Nat.xor_lt_two_pow
        (Nat.xor_lt_two_pow
          (Nat.xor_lt_two_pow
            (Nat.xor_lt_two_pow
              (Nat.xor_lt_two_pow (Nat.xor_lt_two_pow (by norm_num) (hw _)) (hw _))
              (hw _)) (hw _)) (hw _)) (hw _)) (hw _)) (hw _)

theorem setChecksum_word_eq (e : Entry) (c : Nat) :
    (setChecksum e c).word =
      Function.update (setChecksum e 0).word ⟨7, by omega⟩ (metaBase e.meta + c * 2 ^ 48) := by
  funext i
  rcases i with ⟨iv, hv⟩
  by_cases h7 : iv < 7
  · have hne : iv ≠ 7 := by omega
    rw [Function.update_noteq (fun h => hne (congrArg Fin.val h))]
    simp [setChecksum, Entry.word, h7]
  · have h7' : iv = 7 := by omega
    subst h7'
    simp [setChecksum, Entry.word, Function.update_apply, Meta.word, metaBase]

theorem setChecksum_zero_word7 (e : Entry) :
    (setChecksum e 0).word ⟨7, by omega⟩ = metaBase e.meta := by
  simp [setChecksum, Entry.word, Meta.word, metaBase]

theorem lineAcc_setChecksum (e : Entry) (c : Nat) (hb : metaBase e.meta < 2 ^ 48) :
    lineAcc (setChecksum e c).word = lineAcc (setChecksum e 0).word ^^^ c * 2 ^ 48 := by
  rw [setChecksum_word_eq, lineAcc_update, setChecksum_zero_word7,
    add_mul_two_pow_eq_xor _ _ _ hb, Nat.xor_assoc, xor_cancel_left]

theorem setChecksum_zero_word_lt (e : Entry) (hWF : EntryWF e) :
    ∀ i, (setChecksum e 0).word i < 2 ^ 64 := by
  intro i
  rcases i with ⟨iv, hv⟩
  by_cases h7 : iv < 7
  · simpa [setChecksum, Entry.word, h7] using hWF.1 ⟨iv, h7⟩
  · have h7' : iv = 7 := by omega
    subst h7'
    have hb := metaBase_lt e hWF
    have h70 : (setChecksum e 0).word ⟨7, hv⟩ = metaBase e.meta := setChecksum_zero_word7 e
    rw [h70]
    omega

theorem stampChecksum_fold (e : Entry) (hWF : EntryWF e) :
    xor_checksum64 (stampChecksum e) = 0 := by
  have hb := metaBase_lt e hWF
  have hA : lineAcc (setChecksum e 0).word < 2 ^ 64 :=
    lineAcc_lt _ (setChecksum_zero_word_lt e hWF)
  have hclt : fold16 (lineAcc (setChecksum e 0).word) < 2 ^ 16 := fold16_lt _ hA
  show xor_checksum64 (setChecksum e (xor_checksum64 (setChecksum e 0))) = 0
  unfold xor_checksum64 lineChecksum
  rw [lineAcc_setChecksum e _ hb, fold16_xor, fold16_mul_two_pow48 _ hclt, Nat.xor_self]

theorem stampChecksum_flip (e : Entry) (hWF : EntryWF e) (d : Fin 8) (j : Nat) (hj : j < 64) :
    lineChecksum (flipBit (stampChecksum e).word d j) ≠ 0 := by
  unfold lineChecksum
  rw [lineAcc_flip, fold16_xor]
  have h0 : fold16 (lineAcc (stampChecksum e).word) = 0 := stampChecksum_fold e hWF
  rw [h0, Nat.zero_xor]
  exact fold16_two_pow_ne_zero ⟨j, hj⟩

/-! ### 32-bit arithmetic of the full check -/

theorem u32sub_of_le (a b : Nat) (hba : b ≤ a) :
    u32sub (a % U32) (b % U32) = (a - b) % U32 := by
  unfold u32sub U32
  omega

theorem toI32_lt (x : Nat) (h : x < 2147483648) : toI32 x = (x : Int) := by
  unfold toI32
  rw [if_pos h]

theorem flushF_pos (k : Nat) : 0 < flushF k := by
  unfold flushF
  omega

theorem flushF_eq (k : Nat) : flushF k = if k < 2 then 1 else 2 ^ (k - 2) := by
  unfold flushF
  by_cases h2 : k < 2
  · rw [if_pos h2]
    interval_cases k <;> rfl
  · rw [if_neg h2]
    have he : (2:Nat) ^ k = 2 ^ (k - 2) * 4 := by
      rw [show k = (k - 2) + 2 by omega, pow_add]
      norm_num
    rw [he, Nat.mul_div_cancel _ (by norm_num)]
    have := Nat.one_le_two_pow (n := k - 2)
    omega

theorem flushF_dvd (k : Nat) (hk : k < 32) : flushF k ∣ U32 := by
  rw [flushF_eq]
  by_cases h2 : k < 2
  · rw [if_pos h2]
    exact one_dvd _
  · rw [if_neg h2]
    have : (U32 : Nat) = 2 ^ 32 := by unfold U32; norm_num
    rw [this]
    exact pow_dvd_pow 2 (by omega)

theorem flushF_le (k : Nat) (hk : k ≤ 30) : flushF k ≤ 2 ^ 28 := by
  rw [flushF_eq]
  by_cases h2 : k < 2
  · rw [if_pos h2]
    norm_num
  · rw [if_neg h2]
    exact Nat.pow_le_pow_right (by norm_num) (by omega)

theorem toI32_ge (z : Nat) : -2147483648 ≤ toI32 z := by
  unfold toI32 U32
  split <;> omega

theorem fullCond31 (x y : Nat) : fullCond x y 31 = true := by
  unfold fullCond
  have h1 : (2:Nat) ^ 31 % U32 = 2147483648 := by unfold U32; norm_num
  rw [h1]
  have h2 : toI32 2147483648 = -2147483648 := by
    unfold toI32 U32
    norm_num
  rw [h2]
  simp only [decide_eq_true_eq]
  exact toI32_ge _

theorem fullCond_false_lt (k a b : Nat) (hk : k < 32) (hba : b ≤ a)
    (hab : a ≤ b + 2 ^ k + flushF k) (h : fullCond (a % U32) (b % U32) k = false) :
    a - b < 2 ^ k := by
  by_cases hk30 : k ≤ 30
  · have hcap : (2:Nat) ^ k ≤ 2 ^ 30 := Nat.pow_le_pow_right (by norm_num) hk30
    have hF : flushF k ≤ 2 ^ 28 := flushF_le k hk30
    have hd : a - b < 2147483648 := by norm_num at hcap hF ⊢; omega
    unfold fullCond at h
    rw [u32sub_of_le a b hba] at h
    have h2 : (a - b) % U32 = a - b := Nat.mod_eq_of_lt (by unfold U32; omega)
    have hc : (2:Nat) ^ k % U32 = 2 ^ k := Nat.mod_eq_of_lt (by unfold U32; norm_num at hcap ⊢; omega)
    rw [h2, hc, toI32_lt _ (by norm_num at hcap ⊢; omega), toI32_lt _ hd] at h
    simp only [decide_eq_false_iff_not, not_le] at h
    exact_mod_cast h
  · have hk' : k = 31 := by omega
    subst hk'
    rw [fullCond31] at h
    cases h

theorem fullCond_true_at_cap (k : Nat) (hk : k < 32) :
    fullCond (2 ^ k % U32) 0 k = true := by
  by_cases hk30 : k ≤ 30
  · unfold fullCond
    have hs : u32sub (2 ^ k % U32) 0 = 2 ^ k % U32 := by
      unfold u32sub U32
      omega
    rw [hs]
    simp
  · have hk' : k = 31 := by omega
    subst hk'
    exact fullCond31 _ _

/-! ### Epoch arithmetic -/

theorem epochOf_small (t k : Nat) (h : t < 2 ^ k) : epochOf t k = 1 := by
  unfold epochOf
  rw [Nat.shiftRight_eq_div_pow, Nat.div_eq_of_lt h]

theorem epochOf_prev_ne (k t : Nat) (hk : k < 32) (ht : 2 ^ k ≤ t) :
    epochOf ((t - 2 ^ k) % U32) k ≠ epochOf (t % U32) k := by
  have hcpos : 0 < 2 ^ k := Nat.pos_pow_of_pos k (by norm_num)
  have hU : U32 = 2 ^ k * 2 ^ (32 - k) := by
    unfold U32
    rw [show (4294967296:Nat) = 2 ^ 32 by norm_num, ← pow_add]
    congr 1
    omega
  have hcU : 2 ^ k ≤ U32 := by
    rw [hU]
    exact Nat.le_mul_of_pos_right _ (Nat.pos_pow_of_pos _ (by norm_num))
  have hrlt : t % U32 < U32 := Nat.mod_lt _ (by unfold U32; norm_num)
  have hsub : (t - 2 ^ k) % U32 =
      if 2 ^ k ≤ t % U32 then t % U32 - 2 ^ k else t % U32 + U32 - 2 ^ k := by
    by_cases hcr : 2 ^ k ≤ t % U32
    · rw [if_pos hcr]
      unfold U32 at *
      omega
    · rw [if_neg hcr]
      unfold U32 at *
      omega
  rw [hsub]
  by_cases hcr : 2 ^ k ≤ t % U32
  · rw [if_pos hcr]
    unfold epochOf
    rw [Nat.shiftRight_eq_div_pow, Nat.shiftRight_eq_div_pow]
    have hdiv : t % U32 / 2 ^ k = (t % U32 - 2 ^ k) / 2 ^ k + 1 := by
      conv_lhs => rw [show t % U32 = (t % U32 - 2 ^ k) + 1 * 2 ^ k by omega]
      rw [Nat.add_mul_div_right _ _ hcpos]
    rw [hdiv]
    omega
  · rw [if_neg hcr]
    push_neg at hcr
    unfold epochOf
    rw [Nat.shiftRight_eq_div_pow, Nat.shiftRight_eq_div_pow]
    have h1 : t % U32 / 2 ^ k = 0 := Nat.div_eq_of_lt hcr
    obtain ⟨M', hM'⟩ : ∃ M', 2 ^ (32 - k) = M' + 1 :=
      ⟨2 ^ (32 - k) - 1, by have := Nat.one_le_two_pow (n := 32 - k); omega⟩
    have hUeq : U32 = 2 ^ k * M' + 2 ^ k := by
      rw [hU, hM', Nat.mul_succ]
    have h2 : (t % U32 + U32 - 2 ^ k) / 2 ^ k = M' := by
      rw [show t % U32 + U32 - 2 ^ k = t % U32 + 2 ^ k * M' by omega]
      rw [Nat.mul_comm (2 ^ k) M', Nat.add_mul_div_right _ _ hcpos, Nat.div_eq_of_lt hcr]
      omega
    rw [h1, h2]
    have hMe : (M' + 1) % 2 = 0 := by
      rw [← hM', show 32 - k = (32 - k - 1) + 1 by omega, pow_succ]
      exact Nat.mul_mod_left _ _
    omega

/-! ### Last-writer bookkeeping for the ring -/

theorem divCapAdd (a b cap : Nat) (hc : 0 < cap) : (a + cap * b) / cap = a / cap + b := by
  rw [Nat.mul_comm, Nat.add_mul_div_right _ _ hc]

theorem lastW_mem (h cap j i : Nat) (hl : lastW h cap j = some i) : i < h ∧ j ≤ i := by
  unfold lastW at hl
  by_cases hj : j < h
  · rw [if_pos hj] at hl
    injection hl with hl
    have hle : cap * ((h - 1 - j) / cap) ≤ h - 1 - j := by
      rw [Nat.mul_comm]
      exact Nat.div_mul_le_self _ _
    omega
  · rw [if_neg hj] at hl
    cases hl

theorem lastW_snoc (h cap j : Nat) (hc : 0 < cap) (hj : j < cap) :
    lastW (h + 1) cap j = if j = h % cap then some h else lastW h cap j := by
  unfold lastW
  have hd := Nat.mod_add_div h cap
  by_cases hjh : j = h % cap
  · subst hjh
    rw [if_pos rfl, if_pos (by have := Nat.mod_le h cap; omega)]
    have hdiv : (h + 1 - 1 - h % cap) / cap = h / cap := by
      rw [show h + 1 - 1 - h % cap = cap * (h / cap) by omega]
      rw [Nat.mul_div_cancel_left _ hc]
    rw [hdiv, hd]
  · rw [if_neg hjh]
    by_cases hjlt : j < h
    · rw [if_pos (by omega), if_pos hjlt]
      have hdj := Nat.mod_add_div (h - j) cap
      have hrc : (h - j) % cap < cap := Nat.mod_lt _ hc
      have hne : (h - j) % cap ≠ 0 := by
        intro h0
        apply hjh
        have he : h = j + cap * ((h - j) / cap) := by omega
        rw [he, Nat.add_mul_mod_self_left, Nat.mod_eq_of_lt hj]
      obtain ⟨f', hf'⟩ : ∃ f', (h - j) % cap = f' + 1 := ⟨(h - j) % cap - 1, by omega⟩
      rw [hf'] at hdj hrc
      have hdiv : (h + 1 - 1 - j) / cap = (h - 1 - j) / cap := by
        have e1 : h + 1 - 1 - j = (f' + 1) + cap * ((h - j) / cap) := by omega
        have e2 : h - 1 - j = f' + cap * ((h - j) / cap) := by omega
        rw [e1, e2, divCapAdd _ _ _ hc, divCapAdd _ _ _ hc,
          Nat.div_eq_of_lt (show f' + 1 < cap by omega),
          Nat.div_eq_of_lt (show f' < cap by omega)]
      rw [hdiv]
    · have hjneh : j ≠ h := by
        intro hEq
        subst hEq
        exact hjh (Nat.mod_eq_of_lt hj).symm
      rw [if_neg (by omega), if_neg hjlt]

theorem lastW_self (h cap i : Nat) (hc : 0 < cap) (hi : i < h) (hh : h ≤ i + cap) :
    lastW h cap (i % cap) = some i := by
  unfold lastW
  have hd := Nat.mod_add_div i cap
  rw [if_pos (by have := Nat.mod_le i cap; omega)]
  have hdiv : (h - 1 - i % cap) / cap = i / cap := by
    have e1 : h - 1 - i % cap = (h - 1 - i) + cap * (i / cap) := by omega
    rw [e1, divCapAdd _ _ _ hc, Nat.div_eq_of_lt (show h - 1 - i < cap by omega)]
    exact Nat.zero_add _
  rw [hdiv]
  congr 1

theorem lastW_prev (h cap : Nat) (hc : 0 < cap) (hh : cap ≤ h) :
    lastW h cap (h % cap) = some (h - cap) := by
  unfold lastW
  have hjlt : h % cap < cap := Nat.mod_lt _ hc
  have hd := Nat.mod_add_div h cap
  have hq1 : 1 ≤ h / cap := (Nat.le_div_iff_mul_le hc).2 (by omega)
  obtain ⟨q', hq'⟩ : ∃ q', h / cap = q' + 1 := ⟨h / cap - 1, by omega⟩
  rw [hq', Nat.mul_succ] at hd
  rw [if_pos (by omega)]
  have hdiv : (h - 1 - h % cap) / cap = q' := by
    have e1 : h - 1 - h % cap = (cap - 1) + cap * q' := by omega
    rw [e1, divCapAdd _ _ _ hc, Nat.div_eq_of_lt (show cap - 1 < cap by omega)]
    exact Nat.zero_add _
  rw [hdiv]
  congr 1
  omega

theorem lastW_none (h cap : Nat) (hh : h < cap) : lastW h cap (h % cap) = none := by
  unfold lastW
  have hcond : ¬ (h % cap < h) := by
    rw [Nat.mod_eq_of_lt hh]
    omega
  rw [if_neg hcond]

/-! ### Ring contents as a function of the enqueue history -/

theorem cap_pos (k : Nat) : 0 < 2 ^ k := Nat.pos_pow_of_pos k (by norm_num)

theorem cap_lt_U32 (k : Nat) (hk : k < 32) : 2 ^ k < U32 := by
  have h := Nat.pow_le_pow_right (show 1 ≤ 2 by norm_num) (show k ≤ 31 by omega)
  unfold U32
  norm_num at h ⊢
  omega

theorem pow_dvd_U32 (k : Nat) (hk : k < 32) : 2 ^ k ∣ U32 := by
  have hU : (U32 : Nat) = 2 ^ 32 := by unfold U32; norm_num
  rw [hU]
  exact pow_dvd_pow 2 (by omega)

theorem mod_U32_mod_pow (t k : Nat) (hk : k < 32) : t % U32 % 2 ^ k = t % 2 ^ k :=
  Nat.mod_mod_of_dvd t (pow_dvd_U32 k hk)

theorem mod_U32_mod_flushF (t k : Nat) (hk : k < 32) : t % U32 % flushF k = t % flushF k :=
  Nat.mod_mod_of_dvd t (flushF_dvd k hk)

theorem mod_succ_U32 (t : Nat) : (t % U32 + 1) % U32 = (t + 1) % U32 := by
  unfold U32
  omega

theorem stampEntry_args (k : Nat) (e : Entry) (s : Nat) : (stampEntry k e s).args = e.args := rfl

theorem stampEntry_epoch (k : Nat) (e : Entry) (s : Nat) :
    (stampEntry k e s).meta.epoch = epochOf s k := rfl

theorem ringOf_nil (k j : Nat) : ringOf k [] j = zeroEntry := by
  simp [ringOf, lastW]

theorem ringOf_snoc (k : Nat) (E : List Entry) (e : Entry) (j : Nat) (hj : j < 2 ^ k) :
    ringOf k (E ++ [e]) j =
      if j = E.length % 2 ^ k then stampEntry k e (E.length % U32) else ringOf k E j := by
  unfold ringOf
  rw [List.length_append, List.length_singleton, lastW_snoc _ _ _ (cap_pos k) hj]
  by_cases hje : j = E.length % 2 ^ k
  · rw [if_pos hje, if_pos hje]
    show stampEntry k ((E ++ [e]).getD E.length zeroEntry) (E.length % U32) =
      stampEntry k e (E.length % U32)
    congr 1
    rw [List.getD_append_right _ _ _ _ (le_refl _)]
    simp
  · rw [if_neg hje, if_neg hje]
    cases hl : lastW E.length (2 ^ k) j with
    | none => rfl
    | some i =>
      have hi : i < E.length := (lastW_mem _ _ _ _ hl).1
      show stampEntry k ((E ++ [e]).getD i zeroEntry) (i % U32) =
        stampEntry k (E.getD i zeroEntry) (i % U32)
      congr 1
      exact List.getD_append _ _ _ _ hi

theorem ringOf_read (k : Nat) (E : List Entry) (t : Nat) (ht : t < E.length)
    (hcap : E.length ≤ t + 2 ^ k) :
    ringOf k E (t % 2 ^ k) = stampEntry k (E.getD t zeroEntry) (t % U32) := by
  unfold ringOf
  rw [lastW_self _ _ _ (cap_pos k) ht hcap]

theorem ringOf_stale_epoch (k : Nat) (E : List Entry) (hk : k < 32) :
    (ringOf k E (E.length % 2 ^ k)).meta.epoch ≠ epochOf (E.length % U32) k := by
  unfold ringOf
  by_cases hcap : 2 ^ k ≤ E.length
  · rw [lastW_prev _ _ (cap_pos k) hcap]
    show epochOf ((E.length - 2 ^ k) % U32) k ≠ epochOf (E.length % U32) k
    exact epochOf_prev_ne k E.length hk hcap
  · push_neg at hcap
    rw [lastW_none _ _ hcap]
    show (zeroEntry).meta.epoch ≠ epochOf (E.length % U32) k
    have hsm : E.length % U32 = E.length := Nat.mod_eq_of_lt (lt_trans hcap (cap_lt_U32 k hk))
    rw [hsm, epochOf_small _ _ hcap]
    simp [zeroEntry]

theorem take_snoc_map (E : List Entry) (t : Nat) (ht : t < E.length) :
    (E.map Entry.args).take t ++ [(E.getD t zeroEntry).args] = (E.map Entry.args).take (t + 1) := by
  rw [List.take_succ]
  congr 1
  have htm : t < (E.map Entry.args).length := by simpa using ht
  rw [List.getElem?_eq_getElem htm]
  simp [List.getElem_map, List.getD_eq_getElem E zeroEntry ht, List.getElem?_eq_getElem ht]

/-! ### Backoff bounds -/

theorem pause_inv (b : ExponentialBackoff) (ev cy : Nat)
    (hmin : b.MIN_WAIT_CYCLES ≤ b.current_wait) (hmax : b.current_wait ≤ MAX_WAIT_CYCLES) :
    (b.pause ev cy).1.MIN_WAIT_CYCLES = b.MIN_WAIT_CYCLES ∧
      b.MIN_WAIT_CYCLES ≤ (b.pause ev cy).1.current_wait ∧
      (b.pause ev cy).1.current_wait ≤ MAX_WAIT_CYCLES := by
  refine ⟨rfl, ?_, ?_⟩
  · show b.MIN_WAIT_CYCLES ≤ min (b.current_wait * 2 % U32) MAX_WAIT_CYCLES
    unfold MAX_WAIT_CYCLES U32 at *
    omega
  · show min (b.current_wait * 2 % U32) MAX_WAIT_CYCLES ≤ MAX_WAIT_CYCLES
    unfold MAX_WAIT_CYCLES U32 at *
    omega

/-! ### The reachability invariant is established and preserved -/

theorem inv_init (k : Nat) : Inv k (mkQueue k) [] [] := by
  refine ⟨rfl, (Nat.zero_mod _).symm, (Nat.zero_mod _).symm, le_refl _, by simp, ?_, ?_,
    ⟨0, (Nat.zero_mod _).symm, by simp, by simp⟩, ?_, rfl, rfl, rfl, rfl,
    ⟨le_refl _, by show (128:Nat) ≤ MAX_WAIT_CYCLES; norm_num [MAX_WAIT_CYCLES]⟩,
    ⟨le_refl _, by show (50:Nat) ≤ MAX_WAIT_CYCLES; norm_num [MAX_WAIT_CYCLES]⟩,
    ⟨le_refl _, by show (100:Nat) ≤ MAX_WAIT_CYCLES; norm_num [MAX_WAIT_CYCLES]⟩⟩
  · show (0:Nat) = flushF k * (List.length [] / flushF k) % U32
    simp
  · show (0:Nat) = List.length [] / flushF k
    simp
  · intro j hj
    show zeroEntry = ringOf k [] j
    rw [ringOf_nil]

theorem inv_publish (k : Nat) (hk : k < 32) (qi : Queue) (E D : List Entry) (S' : Nat) (e : Entry)
    (horder : qi.order = k)
    (hhead : qi.head = E.length % U32)
    (htail : qi.tail = D.length % U32)
    (hDE : D.length ≤ E.length)
    (hcxl : qi.cxl_tail = flushF k * (D.length / flushF k) % U32)
    (hflushm : qi.metrics.flush_tail = D.length / flushF k)
    (hsh : qi.shadow_tail = S' % U32)
    (hS'le : S' ≤ flushF k * (D.length / flushF k))
    (hlt : E.length < S' + 2 ^ k)
    (hring : ∀ j, j < 2 ^ k → qi.ring j = ringOf k E j)
    (hfifo : D.map Entry.args = (E.map Entry.args).take D.length)
    (hbfmin : qi.backoff_full.MIN_WAIT_CYCLES = 128)
    (hbemin : qi.backoff_empty.MIN_WAIT_CYCLES = 50)
    (hbcmin : qi.backoff_checksum.MIN_WAIT_CYCLES = 100)
    (hbe : 50 ≤ qi.backoff_empty.current_wait ∧ qi.backoff_empty.current_wait ≤ MAX_WAIT_CYCLES)
    (hbc : 100 ≤ qi.backoff_checksum.current_wait ∧
      qi.backoff_checksum.current_wait ≤ MAX_WAIT_CYCLES) :
    Inv k (enqueuePublish qi e qi.head).2.2 (E ++ [e]) D := by
  have hFl_le : flushF k * (D.length / flushF k) ≤ D.length := by
    rw [Nat.mul_comm]
    exact Nat.div_mul_le_self _ _
  refine ⟨horder, ?_, htail, ?_, ?_, hcxl, hflushm, ⟨S', hsh, hS'le, ?_⟩, ?_, ?_,
    hbfmin, hbemin, hbcmin, ⟨?_, ?_⟩, hbe, hbc⟩
  · show (qi.head + 1) % U32 = (E ++ [e]).length % U32
    rw [hhead, mod_succ_U32, List.length_append, List.length_singleton]
  · rw [List.length_append, List.length_singleton]
    omega
  · rw [List.length_append, List.length_singleton]
    omega
  · rw [List.length_append, List.length_singleton]
    omega
  · intro j hj
    show (if j = qi.head % 2 ^ qi.order then stampEntry qi.order e qi.head else qi.ring j) =
      ringOf k (E ++ [e]) j
    rw [horder, hhead, mod_U32_mod_pow _ _ hk, ringOf_snoc _ _ _ _ hj]
    by_cases hje : j = E.length % 2 ^ k
    · rw [if_pos hje, if_pos hje]
    · rw [if_neg hje, if_neg hje]
      exact hring j hj
  · show D.map Entry.args = ((E ++ [e]).map Entry.args).take D.length
    rw [List.map_append, List.take_append_of_le_length (by simpa using hDE)]
    exact hfifo
  · show (128:Nat) ≤ qi.backoff_full.MIN_WAIT_CYCLES
    exact le_of_eq hbfmin.symm
  · show qi.backoff_full.MIN_WAIT_CYCLES ≤ MAX_WAIT_CYCLES
    rw [hbfmin]
    norm_num [MAX_WAIT_CYCLES]

theorem inv_enq (k : Nat) (hk : k < 32) (q : Queue) (E D : List Entry) (hI : Inv k q E D)
    (e : Entry) :
    Inv k (enqueue q e).2.2 (if (enqueue q e).1 then E ++ [e] else E) D := by
  obtain ⟨S, hs1, hs2, hs3⟩ := hI.hshadow
  have hFl_le : flushF k * (D.length / flushF k) ≤ D.length := by
    rw [Nat.mul_comm]
    exact Nat.div_mul_le_self _ _
  have hSle : S ≤ E.length := le_trans hs2 (le_trans hFl_le hI.hDE)
  have hcxlmod : q.cxl_tail % U32 = flushF k * (D.length / flushF k) % U32 := by
    rw [hI.hcxl, Nat.mod_mod_of_dvd _ (dvd_refl _)]
  by_cases hc1 : fullCond q.head q.shadow_tail q.order = true
  · by_cases hc2 : fullCond q.head (q.cxl_tail % U32) q.order = true
    · -- still full after the refresh: enqueue fails, only shadow/metrics/backoff change
      have hp := pause_inv q.backoff_full q.metrics.producer_backoff_events
        q.metrics.producer_backoff_cycles_waited
        (by rw [hI.hbfmin]; exact hI.hbf.1) hI.hbf.2
      simp only [enqueue]
      rw [if_pos hc1, if_pos hc2]
      change Inv k _ E D
      refine ⟨hI.horder, hI.hhead, hI.htail, hI.hDE, hI.hED, hI.hcxl, hI.hflush,
        ⟨flushF k * (D.length / flushF k), hcxlmod, le_refl _, by omega⟩,
        hI.hring, hI.hfifo, ?_, hI.hbemin, hI.hbcmin, ⟨?_, ?_⟩, hI.hbe, hI.hbc⟩
      · exact hp.1.trans hI.hbfmin
      · exact le_trans (le_of_eq hI.hbfmin.symm) hp.2.1
      · exact hp.2.2
    · -- the refresh freed space: publish
      have hc2'' : fullCond q.head (q.cxl_tail % U32) q.order = false := by simpa using hc2
      have hc2' : fullCond (E.length % U32) (flushF k * (D.length / flushF k) % U32) k
          = false := by
        rw [← hI.hhead, ← hcxlmod, ← hI.horder]
        exact hc2''
      have hlt : E.length < flushF k * (D.length / flushF k) + 2 ^ k := by
        have := fullCond_false_lt k E.length (flushF k * (D.length / flushF k)) hk
          (le_trans hFl_le hI.hDE) (by omega) hc2'
        omega
      simp only [enqueue]
      rw [if_pos hc1, if_neg hc2]
      change Inv k _ (E ++ [e]) D
      exact inv_publish k hk _ E D (flushF k * (D.length / flushF k)) e hI.horder hI.hhead
        hI.htail hI.hDE hI.hcxl hI.hflush hcxlmod (le_refl _) hlt hI.hring hI.hfifo
        hI.hbfmin hI.hbemin hI.hbcmin hI.hbe hI.hbc
  · -- fast path: not full, publish directly
    have hc1'' : fullCond q.head q.shadow_tail q.order = false := by simpa using hc1
    have hc1' : fullCond (E.length % U32) (S % U32) k = false := by
      rw [← hI.hhead, ← hs1, ← hI.horder]
      exact hc1''
    have hlt : E.length < S + 2 ^ k := by
      have := fullCond_false_lt k E.length S hk hSle (by omega) hc1'
      omega
    simp only [enqueue]
    rw [if_neg hc1]
    change Inv k _ (E ++ [e]) D
    exact inv_publish k hk _ E D S e hI.horder hI.hhead hI.htail hI.hDE hI.hcxl hI.hflush
      hs1 hs2 hlt hI.hring hI.hfifo hI.hbfmin hI.hbemin hI.hbcmin hI.hbe hI.hbc

theorem load_eq_ringOf (k : Nat) (hk : k < 32) (q : Queue) (E D : List Entry)
    (hI : Inv k q E D) :
    q.ring (q.tail % 2 ^ q.order) = ringOf k E (D.length % 2 ^ k) := by
  rw [hI.horder, hI.htail, mod_U32_mod_pow _ _ hk]
  exact hI.hring _ (Nat.mod_lt _ (cap_pos k))

theorem empty_epoch_mismatch (k : Nat) (hk : k < 32) (q : Queue) (E D : List Entry)
    (hI : Inv k q E D) (hlen : D.length = E.length) :
    (q.ring (q.tail % 2 ^ q.order)).meta.epoch ≠ epochOf q.tail q.order := by
  rw [load_eq_ringOf k hk q E D hI, hI.horder, hI.htail, hlen]
  exact ringOf_stale_epoch k E hk

theorem deq_false_of_empty (k : Nat) (hk : k < 32) (q : Queue) (E D : List Entry)
    (hI : Inv k q E D) (hlen : D.length = E.length) (o : Entry) :
    (dequeue q o).1 = false := by
  simp only [dequeue]
  rw [if_pos (empty_epoch_mismatch k hk q E D hI hlen)]

theorem inv_deq (k : Nat) (hk : k < 32) (q : Queue) (E D : List Entry) (hI : Inv k q E D)
    (o : Entry) :
    Inv k (dequeue q o).2.2 E (if (dequeue q o).1 then D ++ [(dequeue q o).2.1] else D) := by
  have hcpos := cap_pos k
  have hFpos := flushF_pos k
  have hFl_le : flushF k * (D.length / flushF k) ≤ D.length := by
    rw [Nat.mul_comm]
    exact Nat.div_mul_le_self _ _
  have hload := load_eq_ringOf k hk q E D hI
  have hexp : epochOf q.tail q.order = epochOf (D.length % U32) k := by
    rw [hI.horder, hI.htail]
  rcases Nat.lt_or_ge D.length E.length with htlt | htge
  · -- an unread item is present at the tail slot
    have hread : ringOf k E (D.length % 2 ^ k) =
        stampEntry k (E.getD D.length zeroEntry) (D.length % U32) :=
      ringOf_read k E D.length htlt (by have := hI.hED; omega)
    have hmatch : (q.ring (q.tail % 2 ^ q.order)).meta.epoch = epochOf q.tail q.order := by
      rw [hload, hread, stampEntry_epoch, hexp]
    by_cases hcs : verify_checksum (q.ring (q.tail % 2 ^ q.order)) = false
    · -- torn line: checksum failure, only metrics and checksum backoff change
      have hp := pause_inv q.backoff_checksum q.metrics.consumer_backoff_events
        q.metrics.consumer_backoff_cycles_waited (by rw [hI.hbcmin]; exact hI.hbc.1) hI.hbc.2
      simp only [dequeue]
      rw [if_neg (not_not_intro hmatch), if_pos hcs]
      change Inv k _ E D
      refine ⟨hI.horder, hI.hhead, hI.htail, hI.hDE, hI.hED, hI.hcxl, hI.hflush,
        hI.hshadow, hI.hring, hI.hfifo, hI.hbfmin, hI.hbemin, ?_, hI.hbf, hI.hbe, ⟨?_, ?_⟩⟩
      · exact hp.1.trans hI.hbcmin
      · exact le_trans (le_of_eq hI.hbcmin.symm) hp.2.1
      · exact hp.2.2
    · -- successful dequeue
      have ht' : (q.tail + 1) % U32 = (D.length + 1) % U32 := by
        rw [hI.htail, mod_succ_U32]
      have hcond : ((q.tail + 1) % U32 % max 1 (2 ^ q.order / 4) = 0) ↔
          ((D.length + 1) % flushF k = 0) := by
        rw [ht', hI.horder]
        show (D.length + 1) % U32 % flushF k = 0 ↔ (D.length + 1) % flushF k = 0
        rw [mod_U32_mod_flushF _ _ hk]
      have hargs : (q.ring (q.tail % 2 ^ q.order)).args = (E.getD D.length zeroEntry).args := by
        rw [hload, hread, stampEntry_args]
      by_cases hfl : (D.length + 1) % flushF k = 0
      · have hdvd : flushF k ∣ (D.length + 1) := Nat.dvd_of_mod_eq_zero hfl
        simp only [dequeue]
        rw [if_neg (not_not_intro hmatch), if_neg hcs, if_pos (hcond.mpr hfl)]
        change Inv k _ E (D ++ [q.ring (q.tail % 2 ^ q.order)])
        refine ⟨hI.horder, hI.hhead, ?_, ?_, ?_, ?_, ?_, ?_, hI.hring, ?_,
          hI.hbfmin, ?_, ?_, hI.hbf, ⟨?_, ?_⟩, ⟨?_, ?_⟩⟩
        · show (q.tail + 1) % U32 = (D ++ [q.ring (q.tail % 2 ^ q.order)]).length % U32
          rw [ht', List.length_append, List.length_singleton]
        · rw [List.length_append, List.length_singleton]
          omega
        · rw [List.length_append, List.length_singleton]
          have := hI.hED
          omega
        · show (q.tail + 1) % U32 =
            flushF k * ((D ++ [q.ring (q.tail % 2 ^ q.order)]).length / flushF k) % U32
          rw [List.length_append, List.length_singleton, Nat.mul_div_cancel' hdvd, ht']
        · show q.metrics.flush_tail + 1 =
            (D ++ [q.ring (q.tail % 2 ^ q.order)]).length / flushF k
          rw [List.length_append, List.length_singleton, Nat.succ_div, if_pos hdvd, hI.hflush]
        · obtain ⟨S, hs1, hs2, hs3⟩ := hI.hshadow
          refine ⟨S, hs1, ?_, hs3⟩
          rw [List.length_append, List.length_singleton]
          exact le_trans hs2 (Nat.mul_le_mul_left _ (Nat.div_le_div_right (Nat.le_succ _)))
        · show (D ++ [q.ring (q.tail % 2 ^ q.order)]).map Entry.args =
            (E.map Entry.args).take ((D ++ [q.ring (q.tail % 2 ^ q.order)]).length)
          rw [List.length_append, List.length_singleton]
          simp only [List.map_append, List.map_cons, List.map_nil]
          rw [hargs, hI.hfifo]
          exact take_snoc_map E D.length htlt
        · exact hI.hbemin
        · exact hI.hbcmin
        · exact le_of_eq hI.hbemin.symm
        · show q.backoff_empty.MIN_WAIT_CYCLES ≤ MAX_WAIT_CYCLES
          rw [hI.hbemin]
          norm_num [MAX_WAIT_CYCLES]
        · exact le_of_eq hI.hbcmin.symm
        · show q.backoff_checksum.MIN_WAIT_CYCLES ≤ MAX_WAIT_CYCLES
          rw [hI.hbcmin]
          norm_num [MAX_WAIT_CYCLES]
      · simp only [dequeue]
        rw [if_neg (not_not_intro hmatch), if_neg hcs, if_neg (fun hx => hfl (hcond.mp hx))]
        change Inv k _ E (D ++ [q.ring (q.tail % 2 ^ q.order)])
        have hdiv : (D.length + 1) / flushF k = D.length / flushF k := by
          rw [Nat.succ_div, if_neg (fun hd : flushF k ∣ D.length + 1 => by
            obtain ⟨c, hc⟩ := hd
            exact hfl (by rw [hc]; exact Nat.mul_mod_right _ _))]
          omega
        refine ⟨hI.horder, hI.hhead, ?_, ?_, ?_, ?_, ?_, ?_, hI.hring, ?_,
          hI.hbfmin, ?_, ?_, hI.hbf, ⟨?_, ?_⟩, ⟨?_, ?_⟩⟩
        · show (q.tail + 1) % U32 = (D ++ [q.ring (q.tail % 2 ^ q.order)]).length % U32
          rw [ht', List.length_append, List.length_singleton]
        · rw [List.length_append, List.length_singleton]
          omega
        · rw [List.length_append, List.length_singleton]
          have := hI.hED
          omega
        · show q.cxl_tail =
            flushF k * ((D ++ [q.ring (q.tail % 2 ^ q.order)]).length / flushF k) % U32
          rw [List.length_append, List.length_singleton, hdiv]
          exact hI.hcxl
        · show q.metrics.flush_tail =
            (D ++ [q.ring (q.tail % 2 ^ q.order)]).length / flushF k
          rw [List.length_append, List.length_singleton, hdiv]
          exact hI.hflush
        · obtain ⟨S, hs1, hs2, hs3⟩ := hI.hshadow
          refine ⟨S, hs1, ?_, hs3⟩
          rw [List.length_append, List.length_singleton, hdiv]
          exact hs2
        · show (D ++ [q.ring (q.tail % 2 ^ q.order)]).map Entry.args =
            (E.map Entry.args).take ((D ++ [q.ring (q.tail % 2 ^ q.order)]).length)
          rw [List.length_append, List.length_singleton]
          simp only [List.map_append, List.map_cons, List.map_nil]
          rw [hargs, hI.hfifo]
          exact take_snoc_map E D.length htlt
        · exact hI.hbemin
        · exact hI.hbcmin
        · exact le_of_eq hI.hbemin.symm
        · show q.backoff_empty.MIN_WAIT_CYCLES ≤ MAX_WAIT_CYCLES
          rw [hI.hbemin]
          norm_num [MAX_WAIT_CYCLES]
        · exact le_of_eq hI.hbcmin.symm
        · show q.backoff_checksum.MIN_WAIT_CYCLES ≤ MAX_WAIT_CYCLES
          rw [hI.hbcmin]
          norm_num [MAX_WAIT_CYCLES]
  · -- the queue is empty at the tail: the epoch check rejects the stale slot
    have hteq : D.length = E.length := le_antisymm hI.hDE htge
    have hne := empty_epoch_mismatch k hk q E D hI hteq
    have hp := pause_inv q.backoff_empty q.metrics.consumer_backoff_events
      q.metrics.consumer_backoff_cycles_waited (by rw [hI.hbemin]; exact hI.hbe.1) hI.hbe.2
    simp only [dequeue]
    rw [if_pos hne]
    change Inv k _ E D
    refine ⟨hI.horder, hI.hhead, hI.htail, hI.hDE, hI.hED, hI.hcxl, hI.hflush,
      hI.hshadow, hI.hring, hI.hfifo, hI.hbfmin, ?_, hI.hbcmin, hI.hbf, ⟨?_, ?_⟩, hI.hbc⟩
    · exact hp.1.trans hI.hbemin
    · exact le_trans (le_of_eq hI.hbemin.symm) hp.2.1
    · exact hp.2.2

theorem inv_run (k : Nat) (hk : k < 32) (ops : List Op) :
    ∀ (q : Queue) (E D : List Entry), Inv k q E D →
      Inv k (runAux q E D ops).1 (runAux q E D ops).2.1 (runAux q E D ops).2.2 := by
  induction ops with
  | nil =>
    intro q E D hI
    exact hI
  | cons op ops ih =>
    intro q E D hI
    cases op with
    | enq e =>
      simp only [runAux]
      exact ih _ _ _ (inv_enq k hk q E D hI e)
    | deq =>
      simp only [runAux]
      exact ih _ _ _ (inv_deq k hk q E D hI zeroEntry)

theorem run_inv (k : Nat) (hk : k < 32) (ops : List Op) :
    Inv k (run k ops).1 (run k ops).2.1 (run k ops).2.2 :=
  inv_run k hk ops _ _ _ (inv_init k)

theorem runAux_enq_only_D (es : List Entry) :
    ∀ (q : Queue) (E D : List Entry), (runAux q E D (es.map Op.enq)).2.2 = D := by
  induction es with
  | nil =>
    intro q E D
    rfl
  | cons e es ih =>
    intro q E D
    simp only [List.map_cons, runAux]
    exact ih _ _ _

/-! ### The claims -/

/-- Claim C1: FIFO under SPSC.  In the sequential model, for every schedule of
calls from a fresh queue, the payloads returned by the successful dequeues are
exactly the payloads of the successful enqueues `p₀..p_{N−1}`, in that order:
the dequeued payload sequence is precisely the first `|D|` enqueued payloads,
and when every enqueued entry has been dequeued the two sequences coincide. -/
theorem C1_fifo_order (k : Nat) (hk : k < 32) (ops : List Op) :
    (run k ops).2.2.map Entry.args =
      ((run k ops).2.1.map Entry.args).take (run k ops).2.2.length ∧
      ((run k ops).2.2.length = (run k ops).2.1.length →
        (run k ops).2.2.map Entry.args = (run k ops).2.1.map Entry.args) := by
  have hI := run_inv k hk ops
  refine ⟨hI.hfifo, fun hlen => ?_⟩
  rw [hI.hfifo, hlen]
  have hml : (run k ops).2.1.length = ((run k ops).2.1.map Entry.args).length :=
    (List.length_map _ _).symm
  rw [hml, List.take_length]

theorem C1_fifo_order_witness :
    (2 < 32) ∧
      ((run 2 [Op.enq sampleEntry, Op.deq]).2.2.map Entry.args =
        ((run 2 [Op.enq sampleEntry, Op.deq]).2.1.map Entry.args).take
          (run 2 [Op.enq sampleEntry, Op.deq]).2.2.length ∧
        ((run 2 [Op.enq sampleEntry, Op.deq]).2.2.length =
            (run 2 [Op.enq sampleEntry, Op.deq]).2.1.length →
          (run 2 [Op.enq sampleEntry, Op.deq]).2.2.map Entry.args =
            (run 2 [Op.enq sampleEntry, Op.deq]).2.1.map Entry.args)) :=
  ⟨by norm_num, C1_fifo_order 2 (by norm_num) [Op.enq sampleEntry, Op.deq]⟩

/-- Claim C2: the checksum is a zero-fold.  For every well-formed entry whose
checksum field is produced by zeroing the field and storing the 16-bit XOR
fold of the 64 bytes, the fold of the resulting line is zero; and flipping any
single bit outside the checksum field (word `d < 7`, or word 7 below bit 48)
makes the fold non-zero. -/
theorem C2_checksum_zero_fold (e : Entry) (hWF : EntryWF e) :
    xor_checksum64 (stampChecksum e) = 0 ∧
      ∀ (d : Fin 8) (j : Nat), j < 64 → ((d : Nat) < 7 ∨ j < 48) →
        lineChecksum (flipBit (stampChecksum e).word d j) ≠ 0 :=
  ⟨stampChecksum_fold e hWF, fun d j hj _ => stampChecksum_flip e hWF d j hj⟩

theorem C2_checksum_zero_fold_witness :
    EntryWF sampleEntry ∧
      xor_checksum64 (stampChecksum sampleEntry) = 0 ∧
        lineChecksum (flipBit (stampChecksum sampleEntry).word 0 13) ≠ 0 := by
  have hWF : EntryWF sampleEntry := by
    unfold EntryWF
    decide
  exact ⟨hWF, (C2_checksum_zero_fold sampleEntry hWF).1,
    (C2_checksum_zero_fold sampleEntry hWF).2 0 13 (by norm_num) (Or.inl (by decide))⟩

theorem publish_epoch (q qi : Queue) (e : Entry) (hqo : qi.order = q.order) :
    ((enqueuePublish qi e q.head).2.2.ring (q.head % 2 ^ q.order)).meta.epoch =
      (q.head >>> q.order + 1) % 256 := by
  change (if q.head % 2 ^ q.order = q.head % 2 ^ qi.order then stampEntry qi.order e q.head
    else qi.ring (q.head % 2 ^ q.order)).meta.epoch = _
  rw [hqo, if_pos rfl]
  show epochOf q.head q.order = (q.head >>> q.order + 1) % 256
  unfold epochOf
  omega

/-- Claim C3: the epoch rule.  Every successful enqueue writes into slot
`head mod capacity` an entry whose epoch byte equals
`((head >> order) + 1) mod 256`, where `head` is the local head register at the
start of the call. -/
theorem C3_epoch_rule (q : Queue) (e : Entry) (h : (enqueue q e).1 = true) :
    ((enqueue q e).2.2.ring (q.head % 2 ^ q.order)).meta.epoch =
      (q.head >>> q.order + 1) % 256 := by
  by_cases hc1 : fullCond q.head q.shadow_tail q.order = true
  · by_cases hc2 : fullCond q.head (q.cxl_tail % U32) q.order = true
    · exfalso
      simp only [enqueue] at h
      rw [if_pos hc1, if_pos hc2] at h
      simp at h
    · simp only [enqueue]
      rw [if_pos hc1, if_neg hc2]
      exact publish_epoch q _ e rfl
  · simp only [enqueue]
    rw [if_neg hc1]
    exact publish_epoch q _ e rfl

theorem C3_epoch_rule_witness :
    (enqueue (mkQueue 2) sampleEntry).1 = true ∧
      ((enqueue (mkQueue 2) sampleEntry).2.2.ring
          ((mkQueue 2).head % 2 ^ (mkQueue 2).order)).meta.epoch =
        ((mkQueue 2).head >>> (mkQueue 2).order + 1) % 256 :=
  ⟨by decide, C3_epoch_rule (mkQueue 2) sampleEntry (by decide)⟩

/-- Claim C4: full rejection.  Starting from a fresh queue of order `k`, after
a schedule of enqueue calls of which `2 ^ k` returned true (and no dequeue),
the next enqueue returns false and increments the queue-full counter. -/
theorem C4_full_rejection (k : Nat) (hk : k < 32) (es : List Entry) (e : Entry)
    (hN : es.length = 2 ^ k)
    (hall : (run k (es.map Op.enq)).2.1.length = 2 ^ k) :
    (enqueue (run k (es.map Op.enq)).1 e).1 = false ∧
      (enqueue (run k (es.map Op.enq)).1 e).2.2.metrics.queue_full =
        (run k (es.map Op.enq)).1.metrics.queue_full + 1 := by
  have hI := run_inv k hk (es.map Op.enq)
  have hD : (run k (es.map Op.enq)).2.2 = [] := runAux_enq_only_D es _ _ _
  have hD0 : (run k (es.map Op.enq)).2.2.length = 0 := by rw [hD]; rfl
  obtain ⟨S, hs1, hs2, hs3⟩ := hI.hshadow
  have hS0 : S = 0 := by
    rw [hD0] at hs2
    simpa using hs2
  have hshadow0 : (run k (es.map Op.enq)).1.shadow_tail = 0 := by
    rw [hs1, hS0, Nat.zero_mod]
  have hhead : (run k (es.map Op.enq)).1.head = 2 ^ k % U32 := by
    rw [hI.hhead, hall]
  have hcxl0 : (run k (es.map Op.enq)).1.cxl_tail = 0 := by
    rw [hI.hcxl, hD0]
    simp
  have hfc1 : fullCond (run k (es.map Op.enq)).1.head (run k (es.map Op.enq)).1.shadow_tail
      (run k (es.map Op.enq)).1.order = true := by
    rw [hhead, hshadow0, hI.horder]
    exact fullCond_true_at_cap k hk
  have hfc2 : fullCond (run k (es.map Op.enq)).1.head
      ((run k (es.map Op.enq)).1.cxl_tail % U32) (run k (es.map Op.enq)).1.order = true := by
    rw [hhead, hcxl0, hI.horder, Nat.zero_mod]
    exact fullCond_true_at_cap k hk
  constructor
  · simp only [enqueue]
    rw [if_pos hfc1, if_pos hfc2]
  · simp only [enqueue]
    rw [if_pos hfc1, if_pos hfc2]

theorem C4_full_rejection_witness :
    ((1:Nat) < 32) ∧ ([sampleEntry, sampleEntry].length = 2 ^ 1) ∧
      ((run 1 ([sampleEntry, sampleEntry].map Op.enq)).2.1.length = 2 ^ 1) ∧
      ((enqueue (run 1 ([sampleEntry, sampleEntry].map Op.enq)).1 sampleEntry).1 = false ∧
        (enqueue (run 1 ([sampleEntry, sampleEntry].map Op.enq)).1
            sampleEntry).2.2.metrics.queue_full =
          (run 1 ([sampleEntry, sampleEntry].map Op.enq)).1.metrics.queue_full + 1) :=
  ⟨by norm_num, by decide, by decide,
    C4_full_rejection 1 (by norm_num) [sampleEntry, sampleEntry] sampleEntry
      (by decide) (by decide)⟩

/-- Claim C5: empty rejection.  Immediately after construction `dequeue`
returns false, and after any schedule from a fresh queue in which the numbers
of successful enqueues and successful dequeues coincide, the next dequeue
returns false. -/
theorem C5_empty_rejection (k : Nat) (hk : k < 32) :
    (∀ o : Entry, (dequeue (mkQueue k) o).1 = false) ∧
      ∀ ops : List Op, (run k ops).2.1.length = (run k ops).2.2.length →
        ∀ o : Entry, (dequeue (run k ops).1 o).1 = false := by
  constructor
  · intro o
    exact deq_false_of_empty k hk (mkQueue k) [] [] (inv_init k) rfl o
  · intro ops hlen o
    exact deq_false_of_empty k hk _ _ _ (run_inv k hk ops) hlen.symm o

theorem C5_empty_rejection_witness :
    (dequeue (mkQueue 4) zeroEntry).1 = false ∧
      (dequeue (run 4 [Op.enq sampleEntry, Op.deq]).1 zeroEntry).1 = false :=
  ⟨(C5_empty_rejection 4 (by norm_num)).1 zeroEntry,
    (C5_empty_rejection 4 (by norm_num)).2 [Op.enq sampleEntry, Op.deq] (by decide) zeroEntry⟩

/-- Claim C6: atomicity on failure.  Whenever `enqueue` or `dequeue` returns
false, the shared state is untouched: the ring contents, the shared tail line,
the producer head and the consumer tail all keep their previous values (in
particular a failed dequeue, on an epoch mismatch or a checksum failure, does
not advance the tail). -/
theorem C6_failure_frame :
    (∀ (q : Queue) (e : Entry), (enqueue q e).1 = false →
      (enqueue q e).2.2.ring = q.ring ∧ (enqueue q e).2.2.cxl_tail = q.cxl_tail ∧
        (enqueue q e).2.2.head = q.head ∧ (enqueue q e).2.2.tail = q.tail) ∧
      ∀ (q : Queue) (o : Entry), (dequeue q o).1 = false →
        (dequeue q o).2.2.ring = q.ring ∧ (dequeue q o).2.2.cxl_tail = q.cxl_tail ∧
          (dequeue q o).2.2.head = q.head ∧ (dequeue q o).2.2.tail = q.tail := by
  constructor
  · intro q e h
    by_cases hc1 : fullCond q.head q.shadow_tail q.order = true
    · by_cases hc2 : fullCond q.head (q.cxl_tail % U32) q.order = true
      · simp only [enqueue]
        rw [if_pos hc1, if_pos hc2]
        exact ⟨rfl, rfl, rfl, rfl⟩
      · exfalso
        simp only [enqueue] at h
        rw [if_pos hc1, if_neg hc2] at h
        simp [enqueuePublish] at h
    · exfalso
      simp only [enqueue] at h
      rw [if_neg hc1] at h
      simp [enqueuePublish] at h
  · intro q o h
    by_cases hc1 : (q.ring (q.tail % 2 ^ q.order)).meta.epoch ≠ epochOf q.tail q.order
    · simp only [dequeue]
      rw [if_pos hc1]
      exact ⟨rfl, rfl, rfl, rfl⟩
    · by_cases hc2 : verify_checksum (q.ring (q.tail % 2 ^ q.order)) = false
      · simp only [dequeue]
        rw [if_neg hc1, if_pos hc2]
        exact ⟨rfl, rfl, rfl, rfl⟩
      · exfalso
        simp only [dequeue] at h
        rw [if_neg hc1, if_neg hc2] at h
        by_cases hfl : ((q.tail + 1) % U32 % max 1 (2 ^ q.order / 4) = 0)
        · rw [if_pos hfl] at h
          simp at h
        · rw [if_neg hfl] at h
          simp at h

theorem C6_failure_frame_witness :
    ((enqueue (enqueue (mkQueue 0) sampleEntry).2.2 sampleEntry).1 = false ∧
      ((enqueue (enqueue (mkQueue 0) sampleEntry).2.2 sampleEntry).2.2.ring =
          (enqueue (mkQueue 0) sampleEntry).2.2.ring ∧
        (enqueue (enqueue (mkQueue 0) sampleEntry).2.2 sampleEntry).2.2.cxl_tail =
          (enqueue (mkQueue 0) sampleEntry).2.2.cxl_tail ∧
        (enqueue (enqueue (mkQueue 0) sampleEntry).2.2 sampleEntry).2.2.head =
          (enqueue (mkQueue 0) sampleEntry).2.2.head ∧
        (enqueue (enqueue (mkQueue 0) sampleEntry).2.2 sampleEntry).2.2.tail =
          (enqueue (mkQueue 0) sampleEntry).2.2.tail)) ∧
      ((dequeue (mkQueue 0) sampleEntry).1 = false ∧
        ((dequeue (mkQueue 0) sampleEntry).2.2.ring = (mkQueue 0).ring ∧
          (dequeue (mkQueue 0) sampleEntry).2.2.cxl_tail = (mkQueue 0).cxl_tail ∧
          (dequeue (mkQueue 0) sampleEntry).2.2.head = (mkQueue 0).head ∧
          (dequeue (mkQueue 0) sampleEntry).2.2.tail = (mkQueue 0).tail)) :=
  ⟨⟨by decide, C6_failure_frame.1 (enqueue (mkQueue 0) sampleEntry).2.2 sampleEntry (by decide)⟩,
    ⟨by decide, C6_failure_frame.2 (mkQueue 0) sampleEntry (by decide)⟩⟩

/-- Claim C7: tail-flush cadence.  A run of `N` successful dequeues from a
fresh queue performs exactly `⌊N / max(1, 2^k / 4)⌋` tail flushes, and each
successful dequeue flushes exactly when its post-increment tail is a multiple
of `max(1, capacity / 4)`. -/
theorem C7_flush_cadence (k : Nat) (hk : k < 32) :
    (∀ ops : List Op, (run k ops).1.metrics.flush_tail =
        (run k ops).2.2.length / max 1 (2 ^ k / 4)) ∧
      ∀ (q : Queue) (o : Entry), (dequeue q o).1 = true →
        (dequeue q o).2.2.metrics.flush_tail =
          q.metrics.flush_tail +
            (if (q.tail + 1) % U32 % max 1 (2 ^ q.order / 4) = 0 then 1 else 0) := by
  constructor
  · intro ops
    exact (run_inv k hk ops).hflush
  · intro q o h
    by_cases hc1 : (q.ring (q.tail % 2 ^ q.order)).meta.epoch ≠ epochOf q.tail q.order
    · exfalso
      simp only [dequeue] at h
      rw [if_pos hc1] at h
      simp at h
    · by_cases hc2 : verify_checksum (q.ring (q.tail % 2 ^ q.order)) = false
      · exfalso
        simp only [dequeue] at h
        rw [if_neg hc1, if_pos hc2] at h
        simp at h
      · simp only [dequeue]
        rw [if_neg hc1, if_neg hc2]
        by_cases hfl : ((q.tail + 1) % U32 % max 1 (2 ^ q.order / 4) = 0)
        · rw [if_pos hfl, if_pos hfl]
        · rw [if_neg hfl, if_neg hfl]
          exact (Nat.add_zero _).symm

theorem C7_flush_cadence_witness :
    ((run 2 [Op.enq sampleEntry, Op.deq]).1.metrics.flush_tail =
        (run 2 [Op.enq sampleEntry, Op.deq]).2.2.length / max 1 (2 ^ 2 / 4)) ∧
      (dequeue (run 2 [Op.enq sampleEntry]).1 zeroEntry).2.2.metrics.flush_tail =
        (run 2 [Op.enq sampleEntry]).1.metrics.flush_tail +
          (if ((run 2 [Op.enq sampleEntry]).1.tail + 1) % U32 %
              max 1 (2 ^ (run 2 [Op.enq sampleEntry]).1.order / 4) = 0 then 1 else 0) :=
  ⟨(C7_flush_cadence 2 (by norm_num)).1 [Op.enq sampleEntry, Op.deq],
    (C7_flush_cadence 2 (by norm_num)).2 (run 2 [Op.enq sampleEntry]).1 zeroEntry (by decide)⟩

/-- Claim C8: the backoff schedule.  The three thread-local sites start at
their minimum waits (128 producer-full, 50 consumer-empty, 100
consumer-checksum); `pause` adds 1 to the site's event counter and
`current_wait` to its cycles-waited counter (after spinning for `current_wait`
cycles) and then sets `current_wait = min(current_wait * 2, 16384)`; `reset`
restores `current_wait = min_wait`; and along every schedule from a fresh
queue each site satisfies `min_wait ≤ current_wait ≤ 16384`. -/
theorem C8_backoff_schedule (k : Nat) (hk : k < 32) (b : ExponentialBackoff)
    (ev cy : Nat) (hb : b.current_wait ≤ MAX_WAIT_CYCLES) :
    ((mkQueue k).backoff_full = ⟨128, 128⟩ ∧ (mkQueue k).backoff_empty = ⟨50, 50⟩ ∧
        (mkQueue k).backoff_checksum = ⟨100, 100⟩) ∧
      (b.pause ev cy =
        ({ b with current_wait := min (b.current_wait * 2) MAX_WAIT_CYCLES },
          ev + 1, cy + b.current_wait)) ∧
      (b.backoffReset.current_wait = b.MIN_WAIT_CYCLES) ∧
      ∀ ops : List Op,
        128 ≤ (run k ops).1.backoff_full.current_wait ∧
          (run k ops).1.backoff_full.current_wait ≤ MAX_WAIT_CYCLES ∧
          50 ≤ (run k ops).1.backoff_empty.current_wait ∧
          (run k ops).1.backoff_empty.current_wait ≤ MAX_WAIT_CYCLES ∧
          100 ≤ (run k ops).1.backoff_checksum.current_wait ∧
          (run k ops).1.backoff_checksum.current_wait ≤ MAX_WAIT_CYCLES := by
  refine ⟨⟨rfl, rfl, rfl⟩, ?_, rfl, ?_⟩
  · have hmod : b.current_wait * 2 % U32 = b.current_wait * 2 := by
      apply Nat.mod_eq_of_lt
      unfold MAX_WAIT_CYCLES at hb
      unfold U32
      omega
    unfold ExponentialBackoff.pause
    rw [hmod]
  · intro ops
    have hI := run_inv k hk ops
    exact ⟨hI.hbf.1, hI.hbf.2, hI.hbe.1, hI.hbe.2, hI.hbc.1, hI.hbc.2⟩

theorem C8_backoff_schedule_witness :
    ((⟨128, 128⟩ : ExponentialBackoff).current_wait ≤ MAX_WAIT_CYCLES) ∧
      ((⟨128, 128⟩ : ExponentialBackoff).pause 0 0 =
        (⟨128, min (128 * 2) MAX_WAIT_CYCLES⟩, 1, 128)) ∧
      128 ≤ (run 0 [Op.deq]).1.backoff_full.current_wait := by
  have h := C8_backoff_schedule 0 (by norm_num) ⟨128, 128⟩ 0 0
    (by show (128:Nat) ≤ MAX_WAIT_CYCLES; norm_num [MAX_WAIT_CYCLES])
  exact ⟨by show (128:Nat) ≤ MAX_WAIT_CYCLES; norm_num [MAX_WAIT_CYCLES], h.2.1,
    (h.2.2.2 [Op.deq]).1⟩

/-- Claim C9 counterexample: the constructor does not detect `order < 8`.  A
queue built with order 4 (and 64-byte-aligned pointers) passes every assertion
the constructor executes and is fully usable: an enqueue/dequeue round trip
returns the enqueued message. -/
theorem C9_order_check_counterexample :
    ctorAsserts 4096 4160 4 = true ∧
      (run 4 [Op.enq sampleEntry, Op.deq]).2.2.map (fun e => e.meta.rpc_id) = [77] := by
  constructor
  · decide
  · decide

/-- Claim C9 (amended): the constructor's precondition checks cover only the
64-byte alignment of the ring and shared-tail pointers; the order argument is
not validated at all (the checks are independent of it), and a queue with
order < 8 — order 4, as used by the repository's own tests — is usable. -/
theorem C9_order_not_checked :
    (∀ ringAddr cxlAddr o1 o2 : Nat,
        ctorAsserts ringAddr cxlAddr o1 = ctorAsserts ringAddr cxlAddr o2) ∧
      (∀ ringAddr cxlAddr o : Nat,
        ctorAsserts ringAddr cxlAddr o = ((ringAddr % 64 == 0) && (cxlAddr % 64 == 0))) ∧
      (run 4 [Op.enq sampleEntry, Op.deq]).2.2.length = 1 :=
  ⟨fun _ _ _ _ => rfl, fun _ _ _ => rfl, by decide⟩

theorem deq_out (q : Queue) (o : Entry) :
    (dequeue q o).2.1 = q.ring (q.tail % 2 ^ q.order) := by
  by_cases hc1 : (q.ring (q.tail % 2 ^ q.order)).meta.epoch ≠ epochOf q.tail q.order
  · simp only [dequeue]
    rw [if_pos hc1]
  · by_cases hc2 : verify_checksum (q.ring (q.tail % 2 ^ q.order)) = false
    · simp only [dequeue]
      rw [if_neg hc1, if_pos hc2]
    · simp only [dequeue]
      rw [if_neg hc1, if_neg hc2]
      by_cases hfl : ((q.tail + 1) % U32 % max 1 (2 ^ q.order / 4) = 0)
      · rw [if_pos hfl]
      · rw [if_neg hfl]

/-- Claim C10: every dequeue call, including every failing one, overwrites the
caller's buffer with the 64 bytes observed at slot `tail mod capacity` (the
fresh load happens before the epoch and checksum validation), so the buffer
never retains its pre-call contents: the result is independent of the buffer's
previous value. -/
theorem C10_out_overwritten (q : Queue) (o : Entry) :
    (dequeue q o).2.1 = q.ring (q.tail % 2 ^ q.order) ∧
      ∀ o' : Entry, (dequeue q o).2.1 = (dequeue q o').2.1 :=
  ⟨deq_out q o, fun o' => (deq_out q o).trans (deq_out q o').symm⟩

end CxlQueue
